import Mathlib

/-!
Verification development for the pyschematron direct-mode pipeline.

Each definition is a shallow embedding of a function or class of the Python
source; module paths are given in the doc comments.  Machine-level details
that the claims do not touch (XML node descriptors, file IO, the XPath
engine) are abstracted behind explicit parameters.
-/

namespace PySchematron

/-! ## Utils: pyschematron/direct_mode/schematron/utils.py -/

namespace Utils

/-- Word characters of the regex class used by the Python word-boundary
token.  The source relies on the default (unicode) class; the model uses the
ASCII subset, which covers Schematron macro names (the spec restricts names
to ASCII letters, digits and underscore). -/
def isWordChar (c : Char) : Bool :=
  c.isAlpha || c.isDigit || c = '_'

/-- Word boundary immediately after a matched macro key: the regex boundary
holds between the last matched character and the following character
(end-of-string counts as a non-word character). -/
def boundaryAfter (lastChar : Char) (rest : List Char) : Bool :=
  match rest with
  | [] => isWordChar lastChar
  | c :: _ => isWordChar lastChar != isWordChar c

/-- Whether macro key k matches at the head of s followed by a word
boundary.  Keys are matched literally (the source escapes them with
re.escape).  Empty keys never occur: the source documents that every key
carries the dollar sign. -/
def keyMatchesAt (k : String) (s : List Char) : Bool :=
  !k.isEmpty && k.data.isPrefixOf s &&
    (match k.data.getLast? with
     | some lastChar => boundaryAfter lastChar (s.drop k.data.length)
     | none => false)

/-- First macro (in insertion order of the macros dict) matching at the head
of s: the regex alternation tries the alternatives left to right. -/
def firstMacroMatch (macros : List (String × String)) (s : List Char) :
    Option (String × String) :=
  macros.find? (fun kv => keyMatchesAt kv.1 s)

/-- Scanning loop of re.sub: find the leftmost match, emit the replacement,
and continue scanning after the end of the match; replacement text is never
rescanned.  The fuel argument is initialised with the string length, which
bounds the number of scanning steps because every step consumes at least one
character; the zero-fuel branch is unreachable. -/
def macroExpandGo (macros : List (String × String)) : Nat → List Char → List Char
  | _, [] => []
  | 0, s => s
  | fuel + 1, c :: cs =>
    match firstMacroMatch macros (c :: cs) with
    | some kv => kv.2.data ++ macroExpandGo macros fuel (cs.drop (kv.1.length - 1))
    | none => c :: macroExpandGo macros fuel cs

/-- Model of utils.macro_expand: single simultaneous replacement pass of all
macros over the string, each key matched only where followed by a word
boundary. -/
def macroExpand (string : String) (macros : List (String × String)) : String :=
  String.mk (macroExpandGo macros string.data.length string.data)

end Utils

/-! ## AST: pyschematron/direct_mode/schematron/ast.py

Fields not involved in any claim (fpi, icon, see, roles, paragraphs,
diagnostics, properties containers) are omitted; the remaining fields keep
the source names and ordering. -/

namespace AST

/-- Discriminates the Assert and Report subclasses of Check. -/
inductive CheckKind
  | assert
  | report
deriving DecidableEq, Repr

/-- Rich text content items: literal strings, value-of (with its select
query) and name (with its optional path query). -/
inductive RichItem
  | str (s : String)
  | valueOf (select : String)
  | nameOf (path : Option String)
deriving DecidableEq, Repr

/-- Model of the Check node (Assert or Report): test query, rich content and
optional id. -/
structure Check where
  kind : CheckKind
  test : String
  content : List RichItem := []
  id : Option String := none
deriving DecidableEq, Repr

/-- Model of the Variable node: QueryVariable (value is a query string) or
XMLVariable (value is serialized XML content). -/
inductive Variable
  | query (name value : String)
  | xml (name value : String)
deriving DecidableEq, Repr

mutual

/-- Model of the Rule subclasses.  ConcreteRule has a context query and an
optional id; AbstractRule has a required id and no context; fileRule models
ExternalRule (loaded from another file through an extends href). -/
inductive Rule where
  | concrete (context : String) (id : Option String) (checks : List Check)
      (vars : List Variable) (ext : List Exts)
  | abstractRule (id : String) (checks : List Check)
      (vars : List Variable) (ext : List Exts)
  | fileRule (id : Option String) (checks : List Check)
      (vars : List Variable) (ext : List Exts)

/-- Model of the Extends subclasses: ExtendsById carries an id reference,
fromFile models ExtendsExternal and carries the loaded external rule. -/
inductive Exts where
  | byId (idRef : String)
  | fromFile (rule : Rule)

end

/-- Model of the Phase node: required id and the pattern ids of its active
list. -/
structure Phase where
  id : String
  active : List String := []
deriving DecidableEq, Repr

/-- Model of the Pattern subclasses: ConcretePattern, AbstractPattern and
InstancePattern (isA, carrying the is-a reference and the parameters). -/
inductive Pattern where
  | concrete (id : Option String) (rules : List Rule) (vars : List Variable)
      (title : Option String)
  | abstractPat (id : Option String) (rules : List Rule) (vars : List Variable)
      (title : Option String)
  | isA (id : Option String) (abstractIdRef : String)
      (params : List (String × String))

/-- Model of the Schema root node, restricted to the fields the claims
involve. -/
structure Schema where
  patterns : List Pattern := []
  phases : List Phase := []
  vars : List Variable := []
  defaultPhase : Option String := none
  id : Option String := none

/-- Projection telling whether a pattern is concrete. -/
def Pattern.isConcrete : Pattern → Bool
  | .concrete _ _ _ _ => true
  | _ => false

/-- Projection telling whether a rule is concrete. -/
def Rule.isConcrete : Rule → Bool
  | .concrete _ _ _ _ _ => true
  | _ => false

/-- Extends list of a rule. -/
def Rule.ext : Rule → List Exts
  | .concrete _ _ _ _ e => e
  | .abstractRule _ _ _ e => e
  | .fileRule _ _ _ e => e

/-- Checks of a rule. -/
def Rule.checks : Rule → List Check
  | .concrete _ _ c _ _ => c
  | .abstractRule _ c _ _ => c
  | .fileRule _ c _ _ => c

/-- Variables of a rule. -/
def Rule.vars : Rule → List Variable
  | .concrete _ _ _ v _ => v
  | .abstractRule _ _ v _ => v
  | .fileRule _ _ v _ => v

/-- Optional id of a rule. -/
def Rule.idOpt : Rule → Option String
  | .concrete _ i _ _ _ => i
  | .abstractRule i _ _ _ => some i
  | .fileRule i _ _ _ => i

/-- Rules of a pattern (instance patterns have none). -/
def Pattern.rules : Pattern → List Rule
  | .concrete _ r _ _ => r
  | .abstractPat _ r _ _ => r
  | .isA _ _ _ => []

/-- Optional id of a pattern. -/
def Pattern.idOpt : Pattern → Option String
  | .concrete i _ _ _ => i
  | .abstractPat i _ _ _ => i
  | .isA i _ _ => i

end AST

/-! ## Visitors: pyschematron/direct_mode/schematron/ast_visitors.py -/

namespace Visitors

open AST Utils

/-- Result of FindIdVisitor: the first node in traversal order whose id
attribute equals the reference.  Traversal follows get_children, which
yields the node itself first and then the AST-node fields in dataclass
declaration order. -/
inductive Found
  | schemaNode
  | pat (p : Pattern)
  | rul (r : Rule)
  | chk (c : Check)
  | phase (ph : Phase)

/-- First defined option: the recursive search returns the first match in
traversal order. -/
def firstSome (a b : Option Found) : Option Found :=
  match a with
  | some f => some f
  | none => b

mutual

/-- FindIdVisitor restricted to a rule subtree: the rule's own id, then the
checks, then the extends entries (external rules loaded by ExtendsExternal
are themselves searched). -/
def ruleFindId (ref : String) (r : Rule) : Option Found :=
  match r with
  | .concrete _ i checks _ ext =>
      if i = some ref then some (.rul r)
      else firstSome ((checks.find? (fun c => c.id = some ref)).map Found.chk)
        (extsFindId ref ext)
  | .abstractRule i checks _ ext =>
      if i = ref then some (.rul r)
      else firstSome ((checks.find? (fun c => c.id = some ref)).map Found.chk)
        (extsFindId ref ext)
  | .fileRule i checks _ ext =>
      if i = some ref then some (.rul r)
      else firstSome ((checks.find? (fun c => c.id = some ref)).map Found.chk)
        (extsFindId ref ext)

/-- Search of a list of extends entries, in order. -/
def extsFindId (ref : String) (es : List Exts) : Option Found :=
  match es with
  | [] => none
  | e :: rest => firstSome (extFindId ref e) (extsFindId ref rest)

/-- Search of one extends entry: ExtendsById carries no id attribute; an
ExtendsExternal entry is searched through its loaded rule. -/
def extFindId (ref : String) (e : Exts) : Option Found :=
  match e with
  | .byId _ => none
  | .fromFile r => ruleFindId ref r

end

/-- FindIdVisitor restricted to a pattern subtree: the pattern itself first,
then its rules in order. -/
def patFindId (ref : String) (p : Pattern) : Option Found :=
  match p with
  | .concrete i rules _ _ =>
      if i = some ref then some (.pat p)
      else rules.foldr (fun r acc => firstSome (ruleFindId ref r) acc) none
  | .abstractPat i rules _ _ =>
      if i = some ref then some (.pat p)
      else rules.foldr (fun r acc => firstSome (ruleFindId ref r) acc) none
  | .isA i _ _ => if i = some ref then some (.pat p) else none

/-- FindIdVisitor on the schema: the schema's own id, then the patterns,
then the phases, following the field order of the Schema dataclass. -/
def schemaFindId (ref : String) (s : Schema) : Option Found :=
  firstSome (if s.id = some ref then some Found.schemaNode else none)
    (firstSome (s.patterns.foldr (fun p acc => firstSome (patFindId ref p) acc) none)
      (s.phases.foldr (fun ph acc =>
        (if ph.id = ref then some (Found.phase ph) else acc)) none))

/-- String expansion used by MacroExpandVisitor: plain delegation to
utils.macro_expand. -/
def expandS (ms : List (String × String)) (s : String) : String :=
  macroExpand s ms

/-- Optional-string expansion. -/
def expandOS (ms : List (String × String)) (s : Option String) : Option String :=
  s.map (expandS ms)

/-- Macro expansion of a rich content item. -/
def expandRich (ms : List (String × String)) : RichItem → RichItem
  | .str s => .str (expandS ms s)
  | .valueOf q => .valueOf (expandS ms q)
  | .nameOf p => .nameOf (expandOS ms p)

/-- Macro expansion of a check: every string field is expanded. -/
def expandCheck (ms : List (String × String)) (c : Check) : Check :=
  { kind := c.kind, test := expandS ms c.test,
    content := c.content.map (expandRich ms), id := expandOS ms c.id }

/-- Macro expansion of a variable: name and value are both string fields. -/
def expandVar (ms : List (String × String)) : Variable → Variable
  | .query n v => .query (expandS ms n) (expandS ms v)
  | .xml n v => .xml (expandS ms n) (expandS ms v)

mutual

/-- Generic macro expansion of a rule: same constructor, every string field
expanded, extends entries expanded recursively. -/
def expandRule (ms : List (String × String)) (r : Rule) : Rule :=
  match r with
  | .concrete ctx i checks vs ext =>
      .concrete (expandS ms ctx) (expandOS ms i) (checks.map (expandCheck ms))
        (vs.map (expandVar ms)) (expandExts ms ext)
  | .abstractRule i checks vs ext =>
      .abstractRule (expandS ms i) (checks.map (expandCheck ms))
        (vs.map (expandVar ms)) (expandExts ms ext)
  | .fileRule i checks vs ext =>
      .fileRule (expandOS ms i) (checks.map (expandCheck ms))
        (vs.map (expandVar ms)) (expandExts ms ext)

/-- Macro expansion of a list of extends entries. -/
def expandExts (ms : List (String × String)) (es : List Exts) : List Exts :=
  match es with
  | [] => []
  | e :: rest => expandExt ms e :: expandExts ms rest

/-- Macro expansion of one extends entry: the id_ref string of ExtendsById
is a string field and is expanded; an ExtendsExternal entry is expanded
through its loaded rule. -/
def expandExt (ms : List (String × String)) (e : Exts) : Exts :=
  match e with
  | .byId ref => .byId (expandS ms ref)
  | .fromFile r => .fromFile (expandRule ms r)

end

/-- MacroExpandVisitor on a pattern: an AbstractPattern is rebuilt as a
ConcretePattern from its expanded fields; every other node keeps its type
with expanded fields. -/
def macroExpandVisit (ms : List (String × String)) (p : Pattern) : Pattern :=
  match p with
  | .abstractPat i rules vs t =>
      .concrete (expandOS ms i) (rules.map (expandRule ms)) (vs.map (expandVar ms))
        (expandOS ms t)
  | .concrete i rules vs t =>
      .concrete (expandOS ms i) (rules.map (expandRule ms)) (vs.map (expandVar ms))
        (expandOS ms t)
  | .isA i ref params =>
      .isA (expandOS ms i) (expandS ms ref)
        (params.map (fun nv => (expandS ms nv.1, expandS ms nv.2)))

/-- Replacement of the id field, modelling with_updated applied with the
instance pattern's id. -/
def Pattern.withId (i : Option String) : Pattern → Pattern
  | .concrete _ rules vs t => .concrete i rules vs t
  | .abstractPat _ rules vs t => .abstractPat i rules vs t
  | .isA _ ref params => .isA i ref params

/-- Errors raised by the transform visitors.  fuelExhausted models the
Python recursion limit for cyclic extends chains; attributeError models a
dynamic attribute access on a node of the wrong type. -/
inductive TErr
  | fuelExhausted
  | unresolvedAbstractRule (idRef : String)
  | attributeError
  | unresolvedAbstractPattern (idRef : String)
  | phaseNotFound (idRef : String)
  | nonConcretePattern
deriving DecidableEq, Repr

/-- Sequential processing of a list where each element may raise: the
first error aborts the loop, mirroring a Python for loop over fallible
calls. -/
def exceptMap (f : α → Except TErr β) : List α → Except TErr (List β)
  | [] => .ok []
  | x :: xs =>
    match f x with
    | .error e => .error e
    | .ok y =>
      match exceptMap f xs with
      | .error e => .error e
      | .ok ys => .ok (y :: ys)

/-- Sequential processing where each element may raise or be filtered out,
mirroring a Python loop that conditionally appends. -/
def exceptFilterMap (f : α → Except TErr (Option β)) : List α → Except TErr (List β)
  | [] => .ok []
  | x :: xs =>
    match f x with
    | .error e => .error e
    | .ok y =>
      match exceptFilterMap f xs with
      | .error e => .error e
      | .ok ys =>
        match y with
        | some v => .ok (v :: ys)
        | none => .ok ys

/-- Replacement of checks, variables and extends performed at the end of
ResolveExtendsVisitor._process_rule: extended content is prepended and the
extends list is emptied, with the constructor preserved. -/
def Rule.withResolved : Rule → List Check → List Variable → Rule
  | .concrete ctx i checks vs _, ec, ev => .concrete ctx i (ec ++ checks) (ev ++ vs) []
  | .abstractRule i checks vs _, ec, ev => .abstractRule i (ec ++ checks) (ev ++ vs) []
  | .fileRule i checks vs _, ec, ev => .fileRule i (ec ++ checks) (ev ++ vs) []

/-- ResolveExtendsVisitor._process_extends_by_id and
_process_extends_external, parameterized by the continuation that processes
the resolved rule.  An id reference that matches no node raises the
descriptive ValueError; when the reference matches a node that is not a
rule, the subsequent checks attribute access in _process_rule raises an
AttributeError, modelled directly here. -/
def processOneExtWith (next : Rule → Except TErr Rule) (s : Schema)
    (e : Exts) : Except TErr Rule :=
  match e with
  | .byId ref =>
    match schemaFindId ref s with
    | none => .error (.unresolvedAbstractRule ref)
    | some (.rul r2) => next r2
    | some _ => .error .attributeError
  | .fromFile r2 => next r2

/-- ResolveExtendsVisitor._process_rule: each extends entry is resolved to a
rule whose checks and variables are prepended to the rule's own.  The fuel
parameter models the Python recursion limit on chained or cyclic id
references. -/
def processRule : Nat → Schema → Rule → Except TErr Rule
  | 0, _, _ => .error .fuelExhausted
  | fuel + 1, s, r =>
    match exceptMap (processOneExtWith (processRule fuel s) s) r.ext with
    | .error e => .error e
    | .ok resolved =>
      .ok (Rule.withResolved r ((resolved.map Rule.checks).flatten)
        ((resolved.map Rule.vars).flatten))

/-- Resolution of one extends entry at the given recursion budget. -/
def processOneExt (fuel : Nat) (s : Schema) (e : Exts) : Except TErr Rule :=
  processOneExtWith (processRule fuel s) s e

/-- ResolveExtendsVisitor._process_pattern: every rule is processed and only
the concrete rules are kept; instance patterns pass through unchanged. -/
def processPatternExtends (fuel : Nat) (s : Schema) (p : Pattern) :
    Except TErr Pattern :=
  match p with
  | .concrete i rules vs t =>
    match exceptMap (processRule fuel s) rules with
    | .error e => .error e
    | .ok rs => .ok (.concrete i (rs.filter Rule.isConcrete) vs t)
  | .abstractPat i rules vs t =>
    match exceptMap (processRule fuel s) rules with
    | .error e => .error e
    | .ok rs => .ok (.abstractPat i (rs.filter Rule.isConcrete) vs t)
  | .isA _ _ _ => .ok p

/-- ResolveExtendsVisitor applied to a schema: all patterns processed, with
lookups performed against the original schema. -/
def resolveExtends (fuel : Nat) (s : Schema) : Except TErr Schema :=
  match exceptMap (processPatternExtends fuel s) s.patterns with
  | .error e => .error e
  | .ok pats => .ok { s with patterns := pats }

/-- ResolveAbstractPatternsVisitor._process_instance_pattern: the is-a
reference is looked up by id over the whole schema; a reference matching no
node raises the descriptive ValueError.  The macro map prepends the dollar
sign to each parameter name.  When the match is not a pattern, macro
expansion and the id update still succeed but _process_schema drops the
result because it is not a ConcretePattern; the model returns none
directly in that case. -/
def processInstancePattern (s : Schema) (i : Option String) (ref : String)
    (params : List (String × String)) : Except TErr (Option Pattern) :=
  match schemaFindId ref s with
  | none => .error (.unresolvedAbstractPattern ref)
  | some (.pat ap) =>
      let ms := params.map (fun nv => ("$" ++ nv.1, nv.2))
      let result := Pattern.withId i (macroExpandVisit ms ap)
      .ok (if result.isConcrete then some result else none)
  | some _ => .ok none

/-- ResolveAbstractPatternsVisitor._process_schema: instance patterns are
replaced by their expansion, abstract patterns are dropped, and only
ConcretePattern results are kept. -/
def resolveAbstractPatterns (s : Schema) : Except TErr Schema :=
  match exceptFilterMap (fun p =>
    match p with
    | .isA i ref params => processInstancePattern s i ref params
    | .concrete _ _ _ _ => .ok (some p)
    | .abstractPat _ _ _ _ => .ok (none : Option Pattern)) s.patterns with
  | .error e => .error e
  | .ok pats => .ok { s with patterns := pats }

/-- PhaseSelectionVisitor._get_phase_node combined with the active-list
access in the constructor: a None phase becomes the DEFAULT literal, the
ALL literal selects no phase node, the DEFAULT literal is replaced by the
schema's default phase (absent default behaving like ALL), and otherwise
the id is looked up over the whole schema.  A missing id raises the
descriptive ValueError; an id matching a node that is not a phase raises an
AttributeError when the constructor reads its active attribute. -/
def getPhaseNode (s : Schema) (phase : Option String) : Except TErr (Option Phase) :=
  let ph := phase.getD "#DEFAULT"
  if ph = "#ALL" then .ok none
  else
    let ph2 : Option String := if ph = "#DEFAULT" then s.defaultPhase else some ph
    match ph2 with
    | none => .ok none
    | some pid =>
      match schemaFindId pid s with
      | none => .error (.phaseNotFound pid)
      | some (.phase phNode) => .ok (some phNode)
      | some _ => .error .attributeError

/-- PhaseSelectionVisitor applied to a schema: patterns are restricted to
those whose id appears in the selected phase's active list (all patterns
kept when no phase node is selected; a non-concrete pattern raises), and
the phases list is restricted to the selected phase. -/
def phaseSelection (s : Schema) (phase : Option String) : Except TErr Schema :=
  match getPhaseNode s phase with
  | .error e => .error e
  | .ok phNode =>
    match exceptFilterMap (fun p =>
      if p.isConcrete then
        .ok (if (match phNode with
                  | none => true
                  | some sel => p.idOpt.elim false (fun i => sel.active.contains i))
              then some p else none)
      else (.error .nonConcretePattern : Except TErr (Option Pattern))) s.patterns with
    | .error e => .error e
    | .ok pats =>
      let phs := s.phases.filter (fun ph0 =>
        match phNode with
        | none => true
        | some sel => ph0.id == sel.id)
      .ok { s with patterns := pats, phases := phs }

/-- Composition run by the validator: ResolveExtends, then
ResolveAbstractPatterns, then PhaseSelection. -/
def pipeline (fuel : Nat) (s : Schema) (phase : Option String) :
    Except TErr Schema :=
  match resolveExtends fuel s with
  | .error e => .error e
  | .ok s1 =>
    match resolveAbstractPatterns s1 with
    | .error e => .error e
    | .ok s2 => phaseSelection s2 phase

end Visitors

/-! ## Parsing: pyschematron/direct_mode/schematron/parsers/xml/parser.py

SchemaParser.parse dispatches the schema's children by element tag, builds
the per-container lists, and then merges every include-resolved node at the
end.  File loading of IncludeParser is abstracted: an include child carries
the node parsed from the referenced file's root element. -/

namespace Parsing

open AST

/-- Node parsed from an include reference.  The builder lists are plain
Python lists without runtime type checks, so the namespaces container is
modelled with this dynamic node type; other models nodes for which the
include match statement of SchemaParser.parse has no case (they are
silently ignored). -/
inductive PNode
  | pat (p : Pattern)
  | ns (pfx uri : String)
  | phaseNode (ph : Phase)
  | paragraph (content : String)
  | varNode (v : Variable)
  | titleNode (content : String)
  | other

/-- Child element of a schema element, in document order, after dispatch by
local tag name. -/
inductive XChild
  | patternEl (p : Pattern)
  | nsEl (pfx uri : String)
  | phaseEl (ph : Phase)
  | pEl (content : String)
  | letEl (v : Variable)
  | titleEl (content : String)
  | includeEl (resolved : PNode)

/-- State of the SchemaBuilder, restricted to the containers the claims
involve. -/
structure ParsedSchema where
  patterns : List Pattern
  namespaces : List PNode
  phases : List Phase
  paragraphs : List String
  varNodes : List Variable
  title : Option String

/-- Include-node merge step of SchemaParser.parse.  The Phase case calls
add_namespaces in the source (parser.py line 192), so an included phase is
appended to the namespaces container and the phases container is left
unchanged. -/
def mergeInclude (b : ParsedSchema) (n : PNode) : ParsedSchema :=
  match n with
  | .pat p => { b with patterns := b.patterns ++ [p] }
  | .ns a c => { b with namespaces := b.namespaces ++ [PNode.ns a c] }
  | .phaseNode ph => { b with namespaces := b.namespaces ++ [PNode.phaseNode ph] }
  | .paragraph c => { b with paragraphs := b.paragraphs ++ [c] }
  | .varNode v => { b with varNodes := b.varNodes ++ [v] }
  | .titleNode c => { b with title := some c }
  | .other => b

/-- SchemaParser.parse: the direct children are accumulated per tag in
document order, the first title child is set, and afterwards every include
node is merged in document order of the include elements. -/
def schemaParse (children : List XChild) : ParsedSchema :=
  let direct : ParsedSchema := {
    patterns := children.filterMap (fun c => match c with
      | .patternEl p => some p | _ => none),
    namespaces := children.filterMap (fun c => match c with
      | .nsEl a b => some (PNode.ns a b) | _ => none),
    phases := children.filterMap (fun c => match c with
      | .phaseEl ph => some ph | _ => none),
    paragraphs := children.filterMap (fun c => match c with
      | .pEl t => some t | _ => none),
    varNodes := children.filterMap (fun c => match c with
      | .letEl v => some v | _ => none),
    title := (children.filterMap (fun c => match c with
      | .titleEl t => some t | _ => none)).head? }
  (children.filterMap (fun c => match c with
    | .includeEl n => some n | _ => none)).foldl mergeInclude direct

end Parsing

/-! ## Queries: pyschematron/direct_mode/xml_validation/queries/base.py -/

namespace Queries

/-- State of a CachingQueryParser: the source-to-query cache and the number
of invocations of the wrapped parser.  Compiled queries are identified by
the token numbering the wrapped-parser invocation that produced them,
modelling Python object identity of freshly compiled queries. -/
structure CacheState where
  cache : List (String × Nat) := []
  invocations : Nat := 0
deriving DecidableEq, Repr

/-- CachingQueryParser.parse: the body is a setdefault whose second argument
is evaluated before the lookup, so the wrapped parser's parse runs on every
call; when the source is already cached the fresh result is discarded and
the first compiled query is returned. -/
def cachingParse (st : CacheState) (source : String) : Nat × CacheState :=
  let fresh := st.invocations
  let st1 : CacheState := { st with invocations := st.invocations + 1 }
  match st.cache.lookup source with
  | some q => (q, st1)
  | none => (fresh, { st1 with cache := st1.cache ++ [(source, fresh)] })

end Queries

/-! ## Validation: pyschematron/direct_mode/xml_validation/validators.py and
results/validation_results.py

The XPath engine is abstracted into an Engine record fixed for one XML
node: whether the node is a member of the parent-context evaluation of a
context query, the boolean coercion of a test query on the node, and the
rendering of rich text content. -/

namespace Validation

open AST

/-- ConcreteRule as referenced by the validator hierarchy and by the rule
results (the validator constructor rejects every other rule type). -/
structure VRule where
  context : String
  id : Option String := none
  checks : List Check := []
deriving DecidableEq, Repr

/-- ConcretePattern as referenced by a pattern validator and stored in its
pattern results. -/
structure VPattern where
  id : Option String := none
  title : Option String := none
  rules : List VRule := []
deriving DecidableEq, Repr

/-- CheckResult: the check, the literal boolean of its test query, and the
rendered rich text. -/
structure CheckResult where
  check : Check
  testResult : Bool
  text : String := ""
deriving DecidableEq, Repr

/-- CheckResult.check_result: the derived outcome flips the stored test
boolean for an Assert and keeps it for a Report; true means a failed assert
or a successful report. -/
def CheckResult.checkResult (cr : CheckResult) : Bool :=
  match cr.check.kind with
  | .assert => !cr.testResult
  | .report => cr.testResult

/-- RuleResult subclasses: SkippedRuleResult, FiredRuleResult (the only one
carrying check results) and SuppressedRuleResult. -/
inductive RuleResult
  | skipped (rule : VRule)
  | fired (rule : VRule) (checkResults : List CheckResult)
  | suppressed (rule : VRule)
deriving DecidableEq, Repr

/-- RuleResult.is_fired. -/
def RuleResult.isFired : RuleResult → Bool
  | .fired _ _ => true
  | _ => false

/-- SuppressedRuleResult.from_fired_rule_result: only node, context and rule
are carried over; the check results are dropped. -/
def suppressedFromFired : RuleResult → RuleResult
  | .fired r _ => .suppressed r
  | rr => rr

/-- Abstraction of the XPath engine for a fixed XML node. -/
structure Engine where
  ctxMatch : String → Bool
  evalTest : String → Bool
  renderText : List RichItem → String

/-- CheckValidator.validate: evaluate the test query with boolean coercion
and render the rich text. -/
def checkValidate (eng : Engine) (c : Check) : CheckResult :=
  { check := c, testResult := eng.evalTest c.test, text := eng.renderText c.content }

/-- RuleValidator.validate: a context mismatch yields a skipped result;
otherwise all check validators run and a fired result is produced. -/
def ruleValidate (eng : Engine) (r : VRule) : RuleResult :=
  if eng.ctxMatch r.context then .fired r (r.checks.map (checkValidate eng))
  else .skipped r

/-- Loop body of PatternValidator.validate: the running count of fired
rules turns every fired result after the first into a suppressed result. -/
def patternValidateGo (eng : Engine) : List VRule → Nat → List RuleResult
  | [], _ => []
  | r :: rs, nmrFired =>
    let rr := ruleValidate eng r
    if rr.isFired then
      (if nmrFired = 0 then rr else suppressedFromFired rr) ::
        patternValidateGo eng rs (nmrFired + 1)
    else rr :: patternValidateGo eng rs nmrFired

/-- PatternValidator.validate restricted to the rule results. -/
def patternValidate (eng : Engine) (rules : List VRule) : List RuleResult :=
  patternValidateGo eng rules 0

/-- PatternResult: the evaluated pattern and its rule results. -/
structure PatternResult where
  pattern : VPattern
  ruleResults : List RuleResult
deriving DecidableEq, Repr

/-- FullNodeResult restricted to the pattern results. -/
structure NodeResult where
  patternResults : List PatternResult
deriving DecidableEq, Repr

/-- XMLDocumentValidationResult restricted to the node results. -/
structure DocResult where
  nodeResults : List NodeResult
deriving DecidableEq, Repr

/-- FiredRuleResult.is_valid: no check may have a true derived outcome. -/
def firedIsValid (crs : List CheckResult) : Bool :=
  crs.all (fun c => !c.checkResult)

/-- PatternResult.has_fired_rule. -/
def PatternResult.hasFiredRule (pr : PatternResult) : Bool :=
  pr.ruleResults.any RuleResult.isFired

/-- PatternResult.is_valid: only FiredRuleResult entries are inspected. -/
def PatternResult.isValid (pr : PatternResult) : Bool :=
  pr.ruleResults.all (fun rr =>
    match rr with
    | .fired _ crs => firedIsValid crs
    | _ => true)

/-- FullNodeResult.is_valid. -/
def NodeResult.isValid (nr : NodeResult) : Bool :=
  nr.patternResults.all PatternResult.isValid

/-- XMLDocumentValidationResult.is_valid. -/
def DocResult.isValid (d : DocResult) : Bool :=
  d.nodeResults.all NodeResult.isValid

/-- PatternValidator.validate: full pattern result for one node. -/
def patternValidatorValidate (eng : Engine) (p : VPattern) : PatternResult :=
  { pattern := p, ruleResults := patternValidate eng p.rules }

/-- SimpleSchematronXMLValidator._validate_node: one pattern result per
pattern validator. -/
def validateNode (eng : Engine) (ps : List VPattern) : NodeResult :=
  { patternResults := ps.map (patternValidatorValidate eng) }

end Validation

/-! ## SVRL builder: pyschematron/direct_mode/xml_validation/results/svrl_builder.py -/

namespace SVRL

open AST Validation

/-- SVRL validation events, restricted to the fields the claims involve. -/
inductive Event
  | activePattern (id : Option String) (name : Option String)
  | firedRule (context : String) (id : Option String)
  | suppressedRule (context : String)
  | failedAssert (text : String) (test : String)
  | successfulReport (text : String) (test : String)
deriving DecidableEq, Repr

/-- DefaultSVRLReportBuilder._get_svrl_check_results: one FailedAssert or
SuccessfulReport per check whose derived outcome is true. -/
def checkEvents (crs : List CheckResult) : List Event :=
  crs.filterMap (fun cr =>
    if cr.checkResult then
      some (match cr.check.kind with
            | .assert => .failedAssert cr.text cr.check.test
            | .report => .successfulReport cr.text cr.check.test)
    else none)

/-- Rule-result part of the loop in get_validation_events: a fired rule
yields a FiredRule event followed by its check events, a suppressed rule a
SuppressedRule event, and a skipped rule nothing. -/
def ruleEvents : RuleResult → List Event
  | .fired r crs => .firedRule r.context r.id :: checkEvents crs
  | .suppressed r => [.suppressedRule r.context]
  | .skipped _ => []

/-- Dict setdefault followed by list extension, keyed by pattern: a new key
is appended at the end, an existing key keeps its position and its list is
extended. -/
def upsert : List (VPattern × List RuleResult) → VPattern → List RuleResult →
    List (VPattern × List RuleResult)
  | [], k, add => [(k, add)]
  | (k0, v) :: rest, k, add =>
    if k0 = k then (k0, v ++ add) :: rest
    else (k0, v) :: upsert rest k add

/-- Contribution of one pattern result: the rule results are appended only
when the pattern result has a fired rule, but setdefault inserts the
pattern key regardless. -/
def patternContribution (pr : PatternResult) : List RuleResult :=
  if pr.hasFiredRule then pr.ruleResults else []

/-- DefaultSVRLReportBuilder._get_rule_results_by_pattern: iterate all node
results and their pattern results, keying an insertion-ordered dict by
pattern. -/
def groupByPattern (d : DocResult) : List (VPattern × List RuleResult) :=
  d.nodeResults.foldl (fun m nr =>
    nr.patternResults.foldl (fun m2 pr => upsert m2 pr.pattern (patternContribution pr)) m) []

/-- DefaultSVRLReportBuilder.get_validation_events: one ActivePattern per
dict key, each followed by the events of its collected rule results. -/
def getValidationEvents (d : DocResult) : List Event :=
  (groupByPattern d).flatMap (fun kv =>
    .activePattern kv.1.id kv.1.title :: kv.2.flatMap ruleEvents)

end SVRL

/-! ## Specification-side helpers -/

namespace Validation

/-- Check results attached to a rule result: only FiredRuleResult carries
any. -/
def firedChecksOf : RuleResult → List CheckResult
  | .fired _ crs => crs
  | _ => []

/-- Every check result belonging to a fired rule, across all node results
and pattern results of a document result. -/
def allFiredChecks (d : DocResult) : List CheckResult :=
  d.nodeResults.flatMap (fun nr => nr.patternResults.flatMap (fun pr =>
    pr.ruleResults.flatMap firedChecksOf))

theorem patternResult_isValid_iff (pr : PatternResult) :
    pr.isValid = true ↔
      ∀ cr ∈ pr.ruleResults.flatMap firedChecksOf, cr.checkResult = false := by
  simp only [PatternResult.isValid, List.all_eq_true, List.mem_flatMap]
  constructor
  · rintro h cr ⟨rr, hrr, hcr⟩
    have hv := h rr hrr
    cases rr with
    | fired r crs =>
      simp only [firedChecksOf] at hcr
      simp only [firedIsValid, List.all_eq_true] at hv
      simpa using hv cr hcr
    | skipped r => simp [firedChecksOf] at hcr
    | suppressed r => simp [firedChecksOf] at hcr
  · intro h rr hrr
    cases rr with
    | fired r crs =>
      simp only [firedIsValid, List.all_eq_true]
      intro cr hcr
      simpa using h cr ⟨.fired r crs, hrr, by simpa [firedChecksOf] using hcr⟩
    | skipped r => simp
    | suppressed r => simp

theorem nodeResult_isValid_iff (nr : NodeResult) :
    nr.isValid = true ↔
      ∀ cr ∈ nr.patternResults.flatMap
        (fun pr => pr.ruleResults.flatMap firedChecksOf), cr.checkResult = false := by
  simp only [NodeResult.isValid, List.all_eq_true, List.mem_flatMap]
  constructor
  · rintro h cr ⟨pr, hpr, hcr⟩
    exact (patternResult_isValid_iff pr).mp (h pr hpr) cr (List.mem_flatMap.mpr hcr)
  · intro h pr hpr
    exact (patternResult_isValid_iff pr).mpr
      (fun cr hcr => h cr ⟨pr, hpr, List.mem_flatMap.mp hcr⟩)

end Validation

namespace Validation

/-- Specification-side description of the rule results of one pattern on
one node: the boolean records whether some earlier rule in the pattern
already matched. -/
def expectedResults (eng : Engine) : List VRule → Bool → List RuleResult
  | [], _ => []
  | r :: rs, seen =>
    if eng.ctxMatch r.context then
      (if seen then .suppressed r
       else .fired r (r.checks.map (checkValidate eng))) :: expectedResults eng rs true
    else .skipped r :: expectedResults eng rs seen

theorem patternValidateGo_pos (eng : Engine) (rs : List VRule) :
    ∀ n, n ≠ 0 → patternValidateGo eng rs n = expectedResults eng rs true := by
  induction rs with
  | nil => intro n _; rfl
  | cons r rs ih =>
    intro n hn
    by_cases h : eng.ctxMatch r.context = true
    · simp [patternValidateGo, ruleValidate, h, RuleResult.isFired, expectedResults,
        suppressedFromFired, hn, ih (n + 1) (Nat.succ_ne_zero n)]
    · simp [patternValidateGo, ruleValidate, h, RuleResult.isFired, expectedResults,
        ih n hn]

theorem patternValidate_eq_expected (eng : Engine) (rules : List VRule) :
    patternValidate eng rules = expectedResults eng rules false := by
  unfold patternValidate
  induction rules with
  | nil => rfl
  | cons r rs ih =>
    by_cases h : eng.ctxMatch r.context = true
    · simp [patternValidateGo, ruleValidate, h, RuleResult.isFired, expectedResults,
        patternValidateGo_pos eng rs 1 one_ne_zero]
    · simp [patternValidateGo, ruleValidate, h, RuleResult.isFired, expectedResults, ih]

theorem expectedResults_length (eng : Engine) (rs : List VRule) (seen : Bool) :
    (expectedResults eng rs seen).length = rs.length := by
  induction rs generalizing seen with
  | nil => rfl
  | cons r rs ih =>
    by_cases h : eng.ctxMatch r.context = true <;>
      simp [expectedResults, h, ih]

theorem expectedResults_get (eng : Engine) (rs : List VRule) (seen : Bool)
    (i : Nat) (hi : i < rs.length) (ho : i < (expectedResults eng rs seen).length) :
    (expectedResults eng rs seen).get ⟨i, ho⟩ =
      (if eng.ctxMatch (rs.get ⟨i, hi⟩).context = true then
        (if (seen || (rs.take i).any (fun r => eng.ctxMatch r.context)) = true then
          RuleResult.suppressed (rs.get ⟨i, hi⟩)
        else RuleResult.fired (rs.get ⟨i, hi⟩)
          ((rs.get ⟨i, hi⟩).checks.map (checkValidate eng)))
      else RuleResult.skipped (rs.get ⟨i, hi⟩)) := by
  induction rs generalizing seen i with
  | nil => exact absurd hi (Nat.not_lt_zero i)
  | cons r rs ih =>
    cases i with
    | zero =>
      by_cases h : eng.ctxMatch r.context = true <;>
        simp [expectedResults, h]
    | succ j =>
      have hj : j < rs.length := Nat.lt_of_succ_lt_succ hi
      by_cases h : eng.ctxMatch r.context = true
      · have ho2 : j < (expectedResults eng rs true).length := by
          rw [expectedResults_length]; exact hj
        have key := ih true j hj ho2
        simp only [List.get_eq_getElem] at key ⊢
        simp only [show expectedResults eng (r :: rs) seen =
            (if seen then RuleResult.suppressed r
             else RuleResult.fired r (r.checks.map (checkValidate eng))) ::
              expectedResults eng rs true from by simp [expectedResults, h],
          List.getElem_cons_succ]
        rw [key]
        simp [List.take_succ_cons, List.any_cons, h]
      · have ho2 : j < (expectedResults eng rs seen).length := by
          rw [expectedResults_length]; exact hj
        have key := ih seen j hj ho2
        simp only [List.get_eq_getElem] at key ⊢
        simp only [show expectedResults eng (r :: rs) seen =
            RuleResult.skipped r :: expectedResults eng rs seen from by
          simp [expectedResults, h], List.getElem_cons_succ]
        rw [key]
        simp [List.take_succ_cons, List.any_cons, h]

theorem expectedResults_fired_count (eng : Engine) (rs : List VRule) (seen : Bool) :
    ((expectedResults eng rs seen).filter RuleResult.isFired).length =
      (if seen then 0 else (if rs.any (fun r => eng.ctxMatch r.context) then 1 else 0)) := by
  induction rs generalizing seen with
  | nil => cases seen <;> rfl
  | cons r rs ih =>
    by_cases h : eng.ctxMatch r.context = true
    · cases seen <;>
        simp [expectedResults, h, RuleResult.isFired, List.filter, ih]
    · cases seen <;>
        simp [expectedResults, h, RuleResult.isFired, List.filter, ih,
          List.any_cons]

theorem expectedResults_isValid (eng : Engine) (rs : List VRule) (seen : Bool) :
    (expectedResults eng rs seen).all (fun rr =>
        match rr with
        | .fired _ crs => firedIsValid crs
        | _ => true) =
      (if seen then true
       else (rs.find? (fun r => eng.ctxMatch r.context)).elim true
         (fun r => firedIsValid (r.checks.map (checkValidate eng)))) := by
  induction rs generalizing seen with
  | nil => cases seen <;> rfl
  | cons r rs ih =>
    by_cases h : eng.ctxMatch r.context = true
    · cases seen <;>
        simp [expectedResults, h, List.find?, ih]
    · cases seen <;>
        simp [expectedResults, h, List.find?, ih]

end Validation

namespace SVRL

open Validation

/-- Patterns of all pattern results, in encounter order. -/
def encounteredPatterns (d : DocResult) : List VPattern :=
  d.nodeResults.flatMap (fun nr => nr.patternResults.map (fun pr => pr.pattern))

/-- First-occurrence deduplication with an explicit list of already seen
elements. -/
def dedupGo (seen : List VPattern) : List VPattern → List VPattern
  | [] => []
  | p :: rest =>
    if p ∈ seen then dedupGo seen rest else p :: dedupGo (seen ++ [p]) rest

/-- First-occurrence deduplication. -/
def firstDedup (l : List VPattern) : List VPattern := dedupGo [] l

/-- Rule results collected for one pattern: the concatenation, in encounter
order, of the contributions of its pattern results. -/
def firedContributions (d : DocResult) (p : VPattern) : List RuleResult :=
  d.nodeResults.flatMap (fun nr => nr.patternResults.flatMap (fun pr =>
    if pr.pattern = p then patternContribution pr else []))

/-- Whether a pattern had a fired rule on some node of the document. -/
def patternFiredAnywhere (d : DocResult) (p : VPattern) : Bool :=
  d.nodeResults.any (fun nr => nr.patternResults.any (fun pr =>
    decide (pr.pattern = p) && pr.hasFiredRule))

/-- Pattern results of all nodes in encounter order. -/
def allPatternResults (d : DocResult) : List PatternResult :=
  d.nodeResults.flatMap (fun nr => nr.patternResults)

/-- Single fold underlying the grouping dict. -/
def processList (m : List (VPattern × List RuleResult))
    (items : List PatternResult) : List (VPattern × List RuleResult) :=
  items.foldl (fun m2 pr => upsert m2 pr.pattern (patternContribution pr)) m

/-- Contribution of a list of pattern results to one pattern key. -/
def specContrib (items : List PatternResult) (p : VPattern) : List RuleResult :=
  items.flatMap (fun pr => if pr.pattern = p then patternContribution pr else [])

/-- First value associated to a pattern key. -/
def keyVal (m : List (VPattern × List RuleResult)) (p : VPattern) :
    Option (List RuleResult) :=
  (m.find? (fun kv => decide (kv.1 = p))).map Prod.snd

theorem processList_append (m : List (VPattern × List RuleResult))
    (a b : List PatternResult) :
    processList m (a ++ b) = processList (processList m a) b := by
  unfold processList
  rw [List.foldl_append]

theorem groupByPattern_eq_processList (d : DocResult) :
    groupByPattern d = processList [] (allPatternResults d) := by
  show d.nodeResults.foldl _ [] = _
  unfold allPatternResults
  generalize ([] : List (VPattern × List RuleResult)) = m
  induction d.nodeResults generalizing m with
  | nil => rfl
  | cons nr rest ih =>
    simp only [List.foldl_cons, List.flatMap_cons]
    rw [processList_append]
    exact ih _

theorem upsert_keys_mem (m : List (VPattern × List RuleResult)) (k : VPattern)
    (add : List RuleResult) (h : k ∈ m.map Prod.fst) :
    (upsert m k add).map Prod.fst = m.map Prod.fst := by
  induction m with
  | nil => simp at h
  | cons kv rest ih =>
    by_cases hk : kv.1 = k
    · cases kv; subst hk; simp [upsert]
    · cases kv with
      | mk k0 v =>
        simp only [List.map_cons, List.mem_cons] at h
        rcases h with h | h
        · exact absurd h.symm hk
        · simp [upsert, hk, ih h]

theorem upsert_keys_not_mem (m : List (VPattern × List RuleResult)) (k : VPattern)
    (add : List RuleResult) (h : k ∉ m.map Prod.fst) :
    (upsert m k add).map Prod.fst = m.map Prod.fst ++ [k] := by
  induction m with
  | nil => rfl
  | cons kv rest ih =>
    cases kv with
    | mk k0 v =>
      simp only [List.map_cons, List.mem_cons, not_or] at h
      simp [upsert, Ne.symm h.1, ih h.2]

theorem processList_keys (items : List PatternResult) :
    ∀ m, (processList m items).map Prod.fst =
      m.map Prod.fst ++ dedupGo (m.map Prod.fst) (items.map (fun pr => pr.pattern)) := by
  induction items with
  | nil => intro m; simp [processList, dedupGo]
  | cons pr rest ih =>
    intro m
    have hstep : processList m (pr :: rest) =
        processList (upsert m pr.pattern (patternContribution pr)) rest := rfl
    rw [hstep]
    by_cases h : pr.pattern ∈ m.map Prod.fst
    · rw [ih, upsert_keys_mem m pr.pattern _ h]
      simp [dedupGo, h]
    · rw [ih, upsert_keys_not_mem m pr.pattern _ h]
      simp [dedupGo, h, List.append_assoc]

theorem keyVal_upsert_same (m : List (VPattern × List RuleResult)) (k : VPattern)
    (add : List RuleResult) :
    keyVal (upsert m k add) k = some ((keyVal m k).getD [] ++ add) := by
  induction m with
  | nil => simp [upsert, keyVal]
  | cons kv rest ih =>
    cases kv with
    | mk k0 v =>
      by_cases hk : k0 = k
      · subst hk; simp [upsert, keyVal, List.find?]
      · have h1 : upsert ((k0, v) :: rest) k add = (k0, v) :: upsert rest k add := by
          simp [upsert, hk]
        have h2 : ∀ (l : List (VPattern × List RuleResult)),
            keyVal ((k0, v) :: l) k = keyVal l k := by
          intro l; simp [keyVal, List.find?, hk]
        rw [h1, h2 (upsert rest k add), h2 rest, ih]

theorem keyVal_upsert_other (m : List (VPattern × List RuleResult)) (k : VPattern)
    (add : List RuleResult) (p : VPattern) (h : p ≠ k) :
    keyVal (upsert m k add) p = keyVal m p := by
  induction m with
  | nil => simp [upsert, keyVal, List.find?, Ne.symm h]
  | cons kv rest ih =>
    cases kv with
    | mk k0 v =>
      by_cases hk : k0 = k
      · subst hk; simp [upsert, keyVal, List.find?, Ne.symm h]
      · by_cases hp : k0 = p
        · subst hp; simp [upsert, keyVal, List.find?, hk]
        · simp only [keyVal] at ih
          simp [upsert, keyVal, List.find?, hk, hp, ih]

theorem processList_keyVal (items : List PatternResult) :
    ∀ m p, keyVal (processList m items) p =
      (match keyVal m p with
       | some v => some (v ++ specContrib items p)
       | none =>
         if p ∈ items.map (fun pr => pr.pattern) then some (specContrib items p)
         else none) := by
  induction items with
  | nil =>
    intro m p
    cases h : keyVal m p <;> simp [processList, specContrib, h]
  | cons pr rest ih =>
    intro m p
    have hstep : processList m (pr :: rest) =
        processList (upsert m pr.pattern (patternContribution pr)) rest := rfl
    rw [hstep, ih]
    by_cases hp : pr.pattern = p
    · subst hp
      rw [keyVal_upsert_same]
      cases h : keyVal m pr.pattern <;>
        simp [specContrib, h, List.append_assoc]
    · rw [keyVal_upsert_other m pr.pattern _ p (Ne.symm hp)]
      cases h : keyVal m p <;>
        simp [specContrib, h, hp, Ne.symm hp]

theorem dedupGo_not_mem_seen :
    ∀ (l seen : List VPattern) (x : VPattern), x ∈ dedupGo seen l → x ∉ seen := by
  intro l
  induction l with
  | nil => intro seen x hx; simp [dedupGo] at hx
  | cons p rest ih =>
    intro seen x hx
    by_cases hp : p ∈ seen
    · simp only [dedupGo, if_pos hp] at hx
      exact ih seen x hx
    · simp only [dedupGo, if_neg hp, List.mem_cons] at hx
      rcases hx with rfl | hx
      · exact hp
      · intro hse
        exact ih (seen ++ [p]) x hx (List.mem_append_left _ hse)

theorem dedupGo_nodup : ∀ (l seen : List VPattern), (dedupGo seen l).Nodup := by
  intro l
  induction l with
  | nil => intro seen; simp [dedupGo]
  | cons p rest ih =>
    intro seen
    by_cases hp : p ∈ seen
    · simp only [dedupGo, if_pos hp]; exact ih seen
    · simp only [dedupGo, if_neg hp]
      refine List.nodup_cons.mpr ⟨?_, ih (seen ++ [p])⟩
      intro hmem
      exact dedupGo_not_mem_seen rest (seen ++ [p]) p hmem
        (List.mem_append_right _ (List.mem_singleton.mpr rfl))

theorem keyVal_of_mem (m : List (VPattern × List RuleResult))
    (hnd : (m.map Prod.fst).Nodup) (p : VPattern) (rs : List RuleResult)
    (h : (p, rs) ∈ m) : keyVal m p = some rs := by
  induction m with
  | nil => simp at h
  | cons kv rest ih =>
    cases kv with
    | mk k0 v =>
      simp only [List.map_cons, List.nodup_cons] at hnd
      rcases List.mem_cons.mp h with heq | hmem
      · cases heq
        simp [keyVal, List.find?]
      · have hk : k0 ≠ p := by
          intro hk
          subst hk
          exact hnd.1 (List.mem_map.mpr ⟨(k0, rs), hmem, rfl⟩)
        have ihv := ih hnd.2 hmem
        simp only [keyVal] at ihv ⊢
        simp only [List.find?]
        rw [decide_eq_false hk]
        exact ihv

end SVRL

namespace Visitors

open AST

theorem exceptMap_ok_mem {α β : Type} {f : α → Except TErr β} :
    ∀ {l : List α} {out : List β}, exceptMap f l = .ok out →
      ∀ y ∈ out, ∃ x ∈ l, f x = .ok y := by
  intro l
  induction l with
  | nil =>
    intro out h y hy
    simp only [exceptMap] at h
    cases h
    simp at hy
  | cons x xs ih =>
    intro out h y hy
    simp only [exceptMap] at h
    cases hfx : f x with
    | error e => rw [hfx] at h; exact absurd h (by simp [Except.bind])
    | ok y0 =>
      rw [hfx] at h
      cases hrest : exceptMap f xs with
      | error e => rw [hrest] at h; exact absurd h (by simp [Except.bind])
      | ok ys =>
        rw [hrest] at h
        simp only [Except.bind, pure, Except.pure, Except.ok.injEq] at h
        subst h
        rcases List.mem_cons.mp hy with rfl | hmem
        · exact ⟨x, List.mem_cons_self x xs, hfx⟩
        · obtain ⟨x2, hx2, hfx2⟩ := ih hrest y hmem
          exact ⟨x2, List.mem_cons_of_mem x hx2, hfx2⟩

theorem exceptMap_ok_forall {α β : Type} {f : α → Except TErr β} :
    ∀ {l : List α} {out : List β}, exceptMap f l = .ok out →
      ∀ x ∈ l, ∃ y, f x = .ok y := by
  intro l
  induction l with
  | nil => intro out _ x hx; simp at hx
  | cons x xs ih =>
    intro out h z hz
    simp only [exceptMap] at h
    cases hfx : f x with
    | error e => rw [hfx] at h; exact absurd h (by simp [Except.bind])
    | ok y0 =>
      rw [hfx] at h
      cases hrest : exceptMap f xs with
      | error e => rw [hrest] at h; exact absurd h (by simp [Except.bind])
      | ok ys =>
        rcases List.mem_cons.mp hz with rfl | hmem
        · exact ⟨y0, hfx⟩
        · exact ih hrest z hmem

theorem exceptMap_id {α : Type} {f : α → Except TErr α} :
    ∀ {l : List α}, (∀ x ∈ l, f x = .ok x) → exceptMap f l = .ok l := by
  intro l
  induction l with
  | nil => intro _; rfl
  | cons x xs ih =>
    intro h
    have hx := h x (List.mem_cons_self x xs)
    have hxs := ih (fun y hy => h y (List.mem_cons_of_mem x hy))
    simp only [exceptMap, hx, hxs, Except.bind, pure, Except.pure]

theorem exceptFilterMap_ok_mem {α β : Type} {f : α → Except TErr (Option β)} :
    ∀ {l : List α} {out : List β}, exceptFilterMap f l = .ok out →
      ∀ y ∈ out, ∃ x ∈ l, f x = .ok (some y) := by
  intro l
  induction l with
  | nil =>
    intro out h y hy
    simp only [exceptFilterMap] at h
    cases h
    simp at hy
  | cons x xs ih =>
    intro out h y hy
    simp only [exceptFilterMap] at h
    cases hfx : f x with
    | error e => rw [hfx] at h; exact absurd h (by simp [Except.bind])
    | ok o =>
      rw [hfx] at h
      cases hrest : exceptFilterMap f xs with
      | error e => rw [hrest] at h; exact absurd h (by simp [Except.bind])
      | ok ys =>
        rw [hrest] at h
        cases o with
        | some v =>
          simp only [Except.bind, pure, Except.pure, Except.ok.injEq] at h
          subst h
          rcases List.mem_cons.mp hy with rfl | hmem
          · exact ⟨x, List.mem_cons_self x xs, hfx⟩
          · obtain ⟨x2, hx2, hfx2⟩ := ih hrest y hmem
            exact ⟨x2, List.mem_cons_of_mem x hx2, hfx2⟩
        | none =>
          simp only [Except.bind, pure, Except.pure, Except.ok.injEq] at h
          subst h
          obtain ⟨x2, hx2, hfx2⟩ := ih hrest y hy
          exact ⟨x2, List.mem_cons_of_mem x hx2, hfx2⟩

theorem exceptFilterMap_ok_forall {α β : Type} {f : α → Except TErr (Option β)} :
    ∀ {l : List α} {out : List β}, exceptFilterMap f l = .ok out →
      ∀ x ∈ l, ∃ r, f x = .ok r := by
  intro l
  induction l with
  | nil => intro out _ x hx; simp at hx
  | cons x xs ih =>
    intro out h z hz
    simp only [exceptFilterMap] at h
    cases hfx : f x with
    | error e => rw [hfx] at h; exact absurd h (by simp [Except.bind])
    | ok o =>
      rw [hfx] at h
      cases hrest : exceptFilterMap f xs with
      | error e => rw [hrest] at h; exact absurd h (by simp [Except.bind])
      | ok ys =>
        rcases List.mem_cons.mp hz with rfl | hmem
        · exact ⟨o, hfx⟩
        · exact ih hrest z hmem

theorem withResolved_ext (r : Rule) (ec : List Check) (ev : List Variable) :
    (Rule.withResolved r ec ev).ext = [] := by
  cases r <;> rfl

theorem withResolved_isConcrete (r : Rule) (ec : List Check) (ev : List Variable) :
    (Rule.withResolved r ec ev).isConcrete = r.isConcrete := by
  cases r <;> rfl

theorem processRule_ok_shape {fuel : Nat} {s : Schema} {r r' : Rule}
    (h : processRule fuel s r = .ok r') :
    r'.ext = [] ∧ r'.isConcrete = r.isConcrete := by
  cases fuel with
  | zero => exact absurd h (by simp [processRule])
  | succ n =>
    simp only [processRule] at h
    cases hres : exceptMap (processOneExtWith (processRule n s) s) r.ext with
    | error e => rw [hres] at h; exact absurd h (by simp [Except.bind])
    | ok resolved =>
      rw [hres] at h
      simp only [Except.bind, pure, Except.pure, Except.ok.injEq] at h
      subst h
      exact ⟨withResolved_ext r _ _, withResolved_isConcrete r _ _⟩

/-- Rules of the patterns of a schema are all concrete with empty extends
lists; established by ResolveExtends and preserved downstream. -/
def goodRules (s : Schema) : Prop :=
  ∀ p ∈ s.patterns, ∀ r ∈ p.rules, r.isConcrete = true ∧ r.ext = []

theorem resolveExtends_goodRules {fuel : Nat} {s s1 : Schema}
    (h : resolveExtends fuel s = .ok s1) : goodRules s1 := by
  simp only [resolveExtends] at h
  cases hm : exceptMap (processPatternExtends fuel s) s.patterns with
  | error e => rw [hm] at h; exact absurd h (by simp [Except.bind])
  | ok pats =>
    rw [hm] at h
    simp only [Except.bind, pure, Except.pure, Except.ok.injEq] at h
    intro p hp r hr
    have hp1 : p ∈ pats := by rw [← h] at hp; exact hp
    obtain ⟨p0, _, hproc⟩ := exceptMap_ok_mem hm p hp1
    cases p0 with
    | concrete i rules vs t =>
      simp only [processPatternExtends] at hproc
      cases hrs : exceptMap (processRule fuel s) rules with
      | error e => rw [hrs] at hproc; exact absurd hproc (by simp [Except.bind])
      | ok rs =>
        rw [hrs] at hproc
        simp only [Except.bind, pure, Except.pure, Except.ok.injEq] at hproc
        subst hproc
        simp only [Pattern.rules, List.mem_filter] at hr
        obtain ⟨r0, _, hr0⟩ := exceptMap_ok_mem hrs r hr.1
        exact ⟨hr.2, (processRule_ok_shape hr0).1⟩
    | abstractPat i rules vs t =>
      simp only [processPatternExtends] at hproc
      cases hrs : exceptMap (processRule fuel s) rules with
      | error e => rw [hrs] at hproc; exact absurd hproc (by simp [Except.bind])
      | ok rs =>
        rw [hrs] at hproc
        simp only [Except.bind, pure, Except.pure, Except.ok.injEq] at hproc
        subst hproc
        simp only [Pattern.rules, List.mem_filter] at hr
        obtain ⟨r0, _, hr0⟩ := exceptMap_ok_mem hrs r hr.1
        exact ⟨hr.2, (processRule_ok_shape hr0).1⟩
    | isA i ref params =>
      simp only [processPatternExtends, pure, Except.pure, Except.ok.injEq] at hproc
      subst hproc
      simp [Pattern.rules] at hr

theorem expandRule_isConcrete (ms : List (String × String)) (r : Rule) :
    (expandRule ms r).isConcrete = r.isConcrete := by
  cases r <;> simp [expandRule, Rule.isConcrete]

theorem expandRule_ext_nil (ms : List (String × String)) (r : Rule)
    (h : r.ext = []) : (expandRule ms r).ext = [] := by
  cases r <;> simp_all [expandRule, Rule.ext, expandExts]

theorem withId_rules (i : Option String) (p : Pattern) :
    (Pattern.withId i p).rules = p.rules := by
  cases p <;> rfl

theorem withId_isConcrete (i : Option String) (p : Pattern) :
    (Pattern.withId i p).isConcrete = p.isConcrete := by
  cases p <;> rfl

theorem macroExpandVisit_rules (ms : List (String × String)) (p : Pattern) :
    ∀ r' ∈ (macroExpandVisit ms p).rules, ∃ r ∈ p.rules, r' = expandRule ms r := by
  cases p with
  | concrete i rules vs t =>
    intro r' hr'
    simp only [macroExpandVisit, Pattern.rules, List.mem_map] at hr'
    obtain ⟨r, hr, heq⟩ := hr'
    exact ⟨r, hr, heq.symm⟩
  | abstractPat i rules vs t =>
    intro r' hr'
    simp only [macroExpandVisit, Pattern.rules, List.mem_map] at hr'
    obtain ⟨r, hr, heq⟩ := hr'
    exact ⟨r, hr, heq.symm⟩
  | isA i ref params =>
    intro r' hr'
    simp [macroExpandVisit, Pattern.rules] at hr'

mutual

theorem ruleFindId_ne_pat (ref : String) (r : Rule) (q : Pattern) :
    ruleFindId ref r ≠ some (.pat q) := by
  cases r with
  | concrete ctx i checks vs ext =>
    simp only [ruleFindId]
    split
    · intro h; simp at h
    · intro h
      unfold firstSome at h
      cases hfind : (checks.find? (fun c => c.id = some ref)).map Found.chk with
      | some f =>
        rw [hfind] at h
        cases h
        obtain ⟨c, _, hc⟩ := Option.map_eq_some'.mp hfind
        cases hc
      | none =>
        rw [hfind] at h
        exact extsFindId_ne_pat ref ext q h
  | abstractRule i checks vs ext =>
    simp only [ruleFindId]
    split
    · intro h; simp at h
    · intro h
      unfold firstSome at h
      cases hfind : (checks.find? (fun c => c.id = some ref)).map Found.chk with
      | some f =>
        rw [hfind] at h
        cases h
        obtain ⟨c, _, hc⟩ := Option.map_eq_some'.mp hfind
        cases hc
      | none =>
        rw [hfind] at h
        exact extsFindId_ne_pat ref ext q h
  | fileRule i checks vs ext =>
    simp only [ruleFindId]
    split
    · intro h; simp at h
    · intro h
      unfold firstSome at h
      cases hfind : (checks.find? (fun c => c.id = some ref)).map Found.chk with
      | some f =>
        rw [hfind] at h
        cases h
        obtain ⟨c, _, hc⟩ := Option.map_eq_some'.mp hfind
        cases hc
      | none =>
        rw [hfind] at h
        exact extsFindId_ne_pat ref ext q h

theorem extsFindId_ne_pat (ref : String) (es : List Exts) (q : Pattern) :
    extsFindId ref es ≠ some (.pat q) := by
  cases es with
  | nil => simp [extsFindId]
  | cons e rest =>
    simp only [extsFindId]
    intro h
    unfold firstSome at h
    cases hf : extFindId ref e with
    | some f =>
      rw [hf] at h
      cases h
      exact extFindId_ne_pat ref e q hf
    | none =>
      rw [hf] at h
      exact extsFindId_ne_pat ref rest q h

theorem extFindId_ne_pat (ref : String) (e : Exts) (q : Pattern) :
    extFindId ref e ≠ some (.pat q) := by
  cases e with
  | byId _ => simp [extFindId]
  | fromFile r =>
    simp only [extFindId]
    exact ruleFindId_ne_pat ref r q

end

theorem rulesFold_ne_pat (ref : String) (rules : List Rule) (q : Pattern) :
    rules.foldr (fun r acc => firstSome (ruleFindId ref r) acc) none ≠
      some (.pat q) := by
  induction rules with
  | nil => simp
  | cons r rest ih =>
    simp only [List.foldr_cons]
    intro h
    unfold firstSome at h
    cases hf : ruleFindId ref r with
    | some f =>
      rw [hf] at h
      cases h
      exact ruleFindId_ne_pat ref r q hf
    | none =>
      rw [hf] at h
      exact ih h

theorem patFindId_pat (ref : String) (p q : Pattern)
    (h : patFindId ref p = some (.pat q)) : q = p := by
  cases p with
  | concrete i rules vs t =>
    simp only [patFindId] at h
    split at h
    · cases h; rfl
    · exact absurd h (rulesFold_ne_pat ref rules q)
  | abstractPat i rules vs t =>
    simp only [patFindId] at h
    split at h
    · cases h; rfl
    · exact absurd h (rulesFold_ne_pat ref rules q)
  | isA i ref2 params =>
    simp only [patFindId] at h
    split at h
    · cases h; rfl
    · cases h

theorem phasesFold_ne_pat (ref : String) (phases : List Phase) (q : Pattern) :
    phases.foldr (fun ph acc =>
      (if ph.id = ref then some (Found.phase ph) else acc)) none ≠
        some (.pat q) := by
  induction phases with
  | nil => simp
  | cons ph rest ih =>
    simp only [List.foldr_cons]
    split
    · intro h; cases h
    · exact ih

theorem firstSome_some (f : Found) (b : Option Found) :
    firstSome (some f) b = some f := rfl

theorem firstSome_none (b : Option Found) : firstSome none b = b := rfl

theorem patternsFold_pat_mem (ref : String) (ps : List Pattern) (q : Pattern)
    (h : ps.foldr (fun p acc => firstSome (patFindId ref p) acc) none =
      some (.pat q)) : q ∈ ps := by
  induction ps with
  | nil => simp at h
  | cons p rest ih =>
    simp only [List.foldr_cons] at h
    cases hp : patFindId ref p with
    | some f2 =>
      rw [hp] at h
      simp only [firstSome] at h
      cases h
      have hq := patFindId_pat ref p q hp
      subst hq
      exact List.mem_cons_self q rest
    | none =>
      rw [hp] at h
      simp only [firstSome] at h
      exact List.mem_cons_of_mem p (ih h)

theorem schemaFindId_pat_mem (ref : String) (s : Schema) (q : Pattern)
    (h : schemaFindId ref s = some (.pat q)) : q ∈ s.patterns := by
  unfold schemaFindId at h
  by_cases hid : s.id = some ref
  · rw [if_pos hid, firstSome_some] at h
    simp at h
  · rw [if_neg hid, firstSome_none] at h
    cases hfold : s.patterns.foldr
        (fun p acc => firstSome (patFindId ref p) acc) none with
    | some f =>
      rw [hfold, firstSome_some] at h
      cases h
      exact patternsFold_pat_mem ref s.patterns q hfold
    | none =>
      rw [hfold, firstSome_none] at h
      exact absurd h (phasesFold_ne_pat ref s.phases q)

/-- Output shape demanded by the claims: every pattern concrete, every rule
concrete with an empty extends list. -/
def concreteReduced (s : Schema) : Prop :=
  ∀ p ∈ s.patterns, p.isConcrete = true ∧
    ∀ r ∈ p.rules, r.isConcrete = true ∧ r.ext = []

theorem resolveAbstract_good {s s2 : Schema} (hg : goodRules s)
    (h : resolveAbstractPatterns s = .ok s2) : concreteReduced s2 := by
  unfold resolveAbstractPatterns at h
  cases hm : exceptFilterMap (fun p =>
      match p with
      | .isA i ref params => processInstancePattern s i ref params
      | .concrete _ _ _ _ => .ok (some p)
      | .abstractPat _ _ _ _ => .ok (none : Option Pattern)) s.patterns with
  | error e => rw [hm] at h; exact absurd h (by simp)
  | ok pats =>
    rw [hm] at h
    cases h
    intro p hp
    obtain ⟨p0, hp0, hf⟩ := exceptFilterMap_ok_mem hm p hp
    cases p0 with
    | concrete i rules vs t =>
      simp only [Except.ok.injEq, Option.some.injEq] at hf
      subst hf
      exact ⟨rfl, fun r hr => hg _ hp0 r hr⟩
    | abstractPat i rules vs t =>
      simp at hf
    | isA i ref params =>
      simp only [processInstancePattern] at hf
      cases hfind : schemaFindId ref s with
      | none => rw [hfind] at hf; simp at hf
      | some found =>
        rw [hfind] at hf
        cases found with
        | pat ap =>
          simp only [Except.ok.injEq] at hf
          by_cases hc : (Pattern.withId i (macroExpandVisit
              (params.map (fun nv => ("$" ++ nv.1, nv.2))) ap)).isConcrete = true
          · rw [if_pos hc] at hf
            cases hf
            refine ⟨hc, fun r hr => ?_⟩
            rw [withId_rules] at hr
            obtain ⟨r0, hr0, heq⟩ := macroExpandVisit_rules _ ap r hr
            have hap := schemaFindId_pat_mem ref s ap hfind
            obtain ⟨hc0, he0⟩ := hg ap hap r0 hr0
            subst heq
            exact ⟨by rw [expandRule_isConcrete]; exact hc0,
              expandRule_ext_nil _ r0 he0⟩
          · rw [if_neg hc] at hf
            cases hf
        | schemaNode => simp at hf
        | rul r => simp at hf
        | chk c => simp at hf
        | phase ph => simp at hf

theorem phaseSelection_sub {s : Schema} {ph : Option String} {s3 : Schema}
    (h : phaseSelection s ph = .ok s3) :
    ∀ p ∈ s3.patterns, p ∈ s.patterns := by
  unfold phaseSelection at h
  cases hg : getPhaseNode s ph with
  | error e => rw [hg] at h; exact absurd h (by simp)
  | ok phNode =>
    rw [hg] at h
    dsimp only at h
    cases hm : exceptFilterMap (fun p =>
        if p.isConcrete then
          .ok (if (match phNode with
                    | none => true
                    | some sel => p.idOpt.elim false (fun i => sel.active.contains i))
                then some p else none)
        else (.error .nonConcretePattern : Except TErr (Option Pattern)))
        s.patterns with
    | error e => rw [hm] at h; exact absurd h (by simp)
    | ok pats =>
      rw [hm] at h
      cases h
      intro p hp
      obtain ⟨x, hx, hf⟩ := exceptFilterMap_ok_mem hm p hp
      by_cases hc : x.isConcrete = true
      · rw [if_pos hc] at hf
        simp only [Except.ok.injEq] at hf
        split at hf
        · cases hf; exact hx
        · cases hf
      · rw [if_neg hc] at hf
        simp at hf

theorem resolveExtends_identity {s : Schema} (hc : goodRules s) (m : Nat) :
    resolveExtends (m + 1) s = .ok s := by
  unfold resolveExtends
  have hpat : exceptMap (processPatternExtends (m + 1) s) s.patterns =
      .ok s.patterns := by
    apply exceptMap_id
    intro p hp
    have hrid : ∀ r ∈ p.rules, processRule (m + 1) s r = .ok r := by
      intro r hr
      obtain ⟨hconc, hext⟩ := hc p hp r hr
      cases r with
      | concrete ctx i2 checks2 vs2 ext2 =>
        have hext2 : ext2 = [] := hext
        subst hext2
        simp [processRule, exceptMap, Rule.ext, Rule.withResolved]
      | abstractRule i2 checks2 vs2 ext2 =>
        exact absurd hconc (by simp [Rule.isConcrete])
      | fileRule i2 checks2 vs2 ext2 =>
        exact absurd hconc (by simp [Rule.isConcrete])
    have hfilter : ∀ rules0 : List Rule, rules0 = p.rules →
        rules0.filter Rule.isConcrete = rules0 := by
      intro rules0 heq
      subst heq
      exact List.filter_eq_self.mpr (fun r hr => (hc p hp r hr).1)
    cases p with
    | concrete i rules vs t =>
      have hmm : exceptMap (processRule (m + 1) s) rules = .ok rules :=
        exceptMap_id (fun r hr => hrid r hr)
      simp only [processPatternExtends, hmm]
      rw [hfilter rules rfl]
    | abstractPat i rules vs t =>
      have hmm : exceptMap (processRule (m + 1) s) rules = .ok rules :=
        exceptMap_id (fun r hr => hrid r hr)
      simp only [processPatternExtends, hmm]
      rw [hfilter rules rfl]
    | isA i ref params => rfl
  rw [hpat]

end Visitors

/-! ## Claim theorems -/

open AST Utils Visitors Validation SVRL Queries Parsing

/-- C1: a validated document is valid if and only if no check result
belonging to a fired rule, across all node results and pattern results,
has a derived outcome (check_result, which negates the stored test boolean
for an Assert and keeps it for a Report) equal to fail-or-fire. -/
theorem document_valid_iff_no_fired_failure (d : Validation.DocResult) :
    d.isValid = true ↔
      ∀ cr ∈ Validation.allFiredChecks d, cr.checkResult = false := by
  simp only [Validation.DocResult.isValid, List.all_eq_true,
    Validation.allFiredChecks, List.mem_flatMap]
  constructor
  · rintro h cr ⟨nr, hnr, pr, hpr, rr, hrr, hcr⟩
    exact (Validation.nodeResult_isValid_iff nr).mp (h nr hnr) cr
      (List.mem_flatMap.mpr ⟨pr, hpr, List.mem_flatMap.mpr ⟨rr, hrr, hcr⟩⟩)
  · intro h nr hnr
    refine (Validation.nodeResult_isValid_iff nr).mpr (fun cr hcr => ?_)
    obtain ⟨pr, hpr, hcr2⟩ := List.mem_flatMap.mp hcr
    obtain ⟨rr, hrr, hcr3⟩ := List.mem_flatMap.mp hcr2
    exact h cr ⟨nr, hnr, pr, hpr, rr, hrr, hcr3⟩

/-- Phase included by the schema of the C4 evaluation. -/
def c4Phase : AST.Phase := { id := "ph1", active := ["p1"] }

/-- Pattern pulled in through an include element in the C4 evaluation. -/
def c4IncludedPattern : AST.Pattern := .concrete (some "included") [] [] none

/-- Pattern declared directly in the schema of the C4 evaluation. -/
def c4DirectPattern : AST.Pattern := .concrete (some "direct") [] [] none

/-- Children of the schema element of the C4 evaluation, in document order:
an include resolving to a phase, an include resolving to a pattern, a
directly declared pattern, and a namespace declaration. -/
def c4Children : List Parsing.XChild :=
  [.includeEl (.phaseNode c4Phase), .includeEl (.pat c4IncludedPattern),
   .patternEl c4DirectPattern, .nsEl "n" "u"]

/-- C4 evaluation at the failing input: the include resolving to a phase is
appended to the namespaces container instead of the phases container
(SchemaParser.parse routes the Phase match case to add_namespaces), and the
pattern resolved from an include element placed before the direct pattern
ends up after it, not at the position of the include element. -/
theorem include_merge_behaviour :
    (Parsing.schemaParse c4Children).patterns = [c4DirectPattern, c4IncludedPattern] ∧
    (Parsing.schemaParse c4Children).phases = [] ∧
    (Parsing.schemaParse c4Children).namespaces =
      [.ns "n" "u", .phaseNode c4Phase] :=
  ⟨rfl, rfl, rfl⟩

/-- C5 evaluation at the failing input: two successive parse calls with the
same source return the identical memoized query, but the wrapped parser has
been invoked twice because setdefault evaluates its default argument before
the cache lookup. -/
theorem caching_parser_double_invocation :
    (Queries.cachingParse {} "x").1 =
      (Queries.cachingParse (Queries.cachingParse {} "x").2 "x").1 ∧
    (Queries.cachingParse (Queries.cachingParse {} "x").2 "x").2.invocations = 2 := by
  exact ⟨rfl, rfl⟩

/-- C2: when at least two rule contexts of a pattern match the node,
exactly one rule result is fired, namely the result of the textually
earliest matching rule: every later matching rule yields a suppressed
result and every non-matching rule yields a skipped result. -/
theorem rule_shadowing (eng : Validation.Engine) (rules : List Validation.VRule)
    (h2 : 2 ≤ (rules.filter (fun r => eng.ctxMatch r.context)).length) :
    (Validation.patternValidate eng rules).length = rules.length ∧
    ((Validation.patternValidate eng rules).filter
      Validation.RuleResult.isFired).length = 1 ∧
    ∀ i (hi : i < rules.length)
      (ho : i < (Validation.patternValidate eng rules).length),
      (Validation.patternValidate eng rules).get ⟨i, ho⟩ =
        (if eng.ctxMatch (rules.get ⟨i, hi⟩).context = true then
          (if (rules.take i).any (fun r => eng.ctxMatch r.context) = true then
            Validation.RuleResult.suppressed (rules.get ⟨i, hi⟩)
          else Validation.RuleResult.fired (rules.get ⟨i, hi⟩)
            ((rules.get ⟨i, hi⟩).checks.map (Validation.checkValidate eng)))
        else Validation.RuleResult.skipped (rules.get ⟨i, hi⟩)) := by
  have hany : rules.any (fun r => eng.ctxMatch r.context) = true := by
    rcases hmem : rules.filter (fun r => eng.ctxMatch r.context) with _ | ⟨r, rest⟩
    · rw [hmem] at h2; simp at h2
    · have hr : r ∈ rules.filter (fun r => eng.ctxMatch r.context) := by
        rw [hmem]; exact List.mem_cons_self r rest
      have := List.mem_filter.mp hr
      exact List.any_eq_true.mpr ⟨r, this.1, this.2⟩
  refine ⟨?_, ?_, ?_⟩
  · rw [Validation.patternValidate_eq_expected, Validation.expectedResults_length]
  · rw [Validation.patternValidate_eq_expected,
      Validation.expectedResults_fired_count, if_neg (by simp), if_pos hany]
  · intro i hi ho
    have ho2 : i < (Validation.expectedResults eng rules false).length := by
      rw [Validation.expectedResults_length]; exact hi
    have := Validation.expectedResults_get eng rules false i hi ho2
    simp only [Bool.false_or] at this
    simp only [List.get_eq_getElem] at this ⊢
    simp only [Validation.patternValidate_eq_expected]
    exact this

/-- Engine of the C2 witness: the node matches precisely the context query
written m. -/
def c2Engine : Validation.Engine :=
  { ctxMatch := fun s => s == "m", evalTest := fun _ => true,
    renderText := fun _ => "" }

/-- Rules of the C2 witness: the first two contexts match the node, the
third does not. -/
def c2Rules : List Validation.VRule :=
  [{ context := "m", id := some "r1" }, { context := "m", id := some "r2" },
   { context := "x" }]

/-- Witness for C2 at a pattern with two matching rules and one
non-matching rule. -/
theorem rule_shadowing_witness :
    (2 ≤ (c2Rules.filter (fun r => c2Engine.ctxMatch r.context)).length) ∧
    ((Validation.patternValidate c2Engine c2Rules).length = c2Rules.length ∧
    ((Validation.patternValidate c2Engine c2Rules).filter
      Validation.RuleResult.isFired).length = 1 ∧
    ∀ i (hi : i < c2Rules.length)
      (ho : i < (Validation.patternValidate c2Engine c2Rules).length),
      (Validation.patternValidate c2Engine c2Rules).get ⟨i, ho⟩ =
        (if c2Engine.ctxMatch (c2Rules.get ⟨i, hi⟩).context = true then
          (if (c2Rules.take i).any (fun r => c2Engine.ctxMatch r.context) = true then
            Validation.RuleResult.suppressed (c2Rules.get ⟨i, hi⟩)
          else Validation.RuleResult.fired (c2Rules.get ⟨i, hi⟩)
            ((c2Rules.get ⟨i, hi⟩).checks.map (Validation.checkValidate c2Engine)))
        else Validation.RuleResult.skipped (c2Rules.get ⟨i, hi⟩))) :=
  ⟨by decide, rule_shadowing c2Engine c2Rules (by decide)⟩

/-- C10: check outcomes of a suppressed rule never influence validity.  A
suppressed result built from a fired result carries no check results, and
the validity of a pattern result equals the validity of the checks of the
earliest matching rule alone, whatever the other rules contain. -/
theorem suppressed_checks_ignored :
    (∀ (eng : Validation.Engine) (p : Validation.VPattern),
      (Validation.patternValidatorValidate eng p).isValid =
        ((p.rules.find? (fun r => eng.ctxMatch r.context)).elim true
          (fun r => Validation.firedIsValid
            (r.checks.map (Validation.checkValidate eng))))) ∧
    (∀ (r : Validation.VRule) (crs : List Validation.CheckResult),
      Validation.suppressedFromFired (.fired r crs) = .suppressed r) := by
  constructor
  · intro eng p
    show (Validation.patternValidate eng p.rules).all _ = _
    rw [Validation.patternValidate_eq_expected,
      Validation.expectedResults_isValid eng p.rules false, if_neg (by simp)]
  · intro r crs
    rfl

/-- Rule of the C3 counterexample. -/
def c3Rule : Validation.VRule := { context := "ctx" }

/-- Pattern of the C3 counterexample. -/
def c3Pattern : Validation.VPattern := { id := some "p1", rules := [c3Rule] }

/-- Validation result of the C3 counterexample: one node, one pattern
result whose single rule was skipped, so the pattern fired nowhere. -/
def c3Doc : Validation.DocResult :=
  { nodeResults := [{ patternResults :=
      [{ pattern := c3Pattern, ruleResults := [.skipped c3Rule] }] }] }

/-- Counterexample to C3 as stated: the pattern had no fired rule on any
node, yet the SVRL event stream contains an ActivePattern event for it,
because the grouping dict inserts every encountered pattern through
setdefault before testing has_fired_rule. -/
theorem svrl_inactive_pattern_event :
    SVRL.patternFiredAnywhere c3Doc c3Pattern = false ∧
    SVRL.getValidationEvents c3Doc = [.activePattern (some "p1") none] :=
  ⟨rfl, rfl⟩

/-- C3 amended: the built SVRL contains exactly one ActivePattern event per
distinct pattern that appears in the node results, in pattern encounter
order and regardless of whether any of its rules fired; the rule results
collected behind each pattern are exactly those of its pattern results that
have a fired rule, in encounter order; each ActivePattern is followed by
the events of its collected rule results, where a fired rule contributes a
FiredRule event with a FailedAssert or SuccessfulReport child per check
whose derived outcome is fail-or-fire, a suppressed rule contributes a
SuppressedRule event, and a skipped rule contributes nothing. -/
theorem svrl_event_stream_shape (d : Validation.DocResult) :
    (SVRL.groupByPattern d).map Prod.fst =
      SVRL.firstDedup (SVRL.encounteredPatterns d) ∧
    (∀ p rs, (p, rs) ∈ SVRL.groupByPattern d →
      rs = SVRL.firedContributions d p) ∧
    SVRL.getValidationEvents d = (SVRL.groupByPattern d).flatMap (fun kv =>
      SVRL.Event.activePattern kv.1.id kv.1.title ::
        kv.2.flatMap SVRL.ruleEvents) ∧
    (∀ r, SVRL.ruleEvents (.skipped r) = []) ∧
    (∀ r, SVRL.ruleEvents (.suppressed r) = [.suppressedRule r.context]) ∧
    (∀ r crs, SVRL.ruleEvents (.fired r crs) =
      .firedRule r.context r.id :: SVRL.checkEvents crs) := by
  refine ⟨?_, ?_, rfl, fun r => rfl, fun r => rfl, fun r crs => rfl⟩
  · rw [SVRL.groupByPattern_eq_processList, SVRL.processList_keys]
    simp only [List.map_nil, List.nil_append]
    unfold SVRL.firstDedup SVRL.encounteredPatterns SVRL.allPatternResults
    rw [List.map_flatMap]
  · intro p rs hmem
    have hnd : ((SVRL.groupByPattern d).map Prod.fst).Nodup := by
      rw [SVRL.groupByPattern_eq_processList, SVRL.processList_keys]
      simp only [List.map_nil, List.nil_append]
      exact SVRL.dedupGo_nodup _ _
    have hkv := SVRL.keyVal_of_mem _ hnd p rs hmem
    rw [SVRL.groupByPattern_eq_processList, SVRL.processList_keyVal] at hkv
    have hcontrib : SVRL.specContrib (SVRL.allPatternResults d) p =
        SVRL.firedContributions d p := by
      unfold SVRL.specContrib SVRL.allPatternResults SVRL.firedContributions
      rw [List.flatMap_assoc]
    simp only [SVRL.keyVal, List.find?, Option.map_none'] at hkv
    by_cases hp : p ∈ (SVRL.allPatternResults d).map (fun pr => pr.pattern)
    · rw [if_pos hp] at hkv
      cases hkv
      exact hcontrib
    · rw [if_neg hp] at hkv
      cases hkv

/-- C7: whenever the three transform visitors (ResolveExtends, then
ResolveAbstractPatterns, then PhaseSelection) run to completion, the
resulting schema contains no AbstractRule, ExternalRule, AbstractPattern,
InstancePattern, ExtendsById or ExtendsExternal node: every pattern is
concrete and every rule of every pattern is concrete with an empty extends
list. -/
theorem pipeline_concrete_reduced (fuel : Nat) (s : AST.Schema)
    (phase : Option String) (s' : AST.Schema)
    (h : Visitors.pipeline fuel s phase = .ok s') :
    Visitors.concreteReduced s' := by
  unfold Visitors.pipeline at h
  cases h1 : Visitors.resolveExtends fuel s with
  | error e => rw [h1] at h; exact absurd h (by simp)
  | ok s1 =>
    rw [h1] at h
    dsimp only at h
    cases h2 : Visitors.resolveAbstractPatterns s1 with
    | error e => rw [h2] at h; exact absurd h (by simp)
    | ok s2 =>
      rw [h2] at h
      dsimp only at h
      have hg1 := Visitors.resolveExtends_goodRules h1
      have hcr2 := Visitors.resolveAbstract_good hg1 h2
      intro p hp
      have hmem := Visitors.phaseSelection_sub h p hp
      exact hcr2 p hmem

/-- Schema of the C7 witness: a concrete pattern whose rule extends an
abstract rule by id, an abstract pattern, an instance of it, and a phase
selected through the default phase attribute. -/
def c7Schema : AST.Schema :=
  { patterns :=
      [.concrete (some "p1")
        [.concrete "ctx" none [{ kind := .assert, test := "t" }] [] [.byId "ar"],
         .abstractRule "ar" [{ kind := .report, test := "t2" }] [] []] [] none,
       .abstractPat (some "ap") [.concrete "$c" none [] [] []] [] none,
       .isA (some "p2") "ap" [("c", "xyz")]],
    phases := [{ id := "q", active := ["p1", "p2"] }],
    defaultPhase := some "q" }

/-- Witness for C7 on the c7Schema pipeline run. -/
theorem pipeline_concrete_reduced_witness :
    ∃ s', Visitors.pipeline 5 c7Schema none = .ok s' ∧
      Visitors.concreteReduced s' :=
  ⟨_, rfl, pipeline_concrete_reduced 5 c7Schema none _ rfl⟩

/-- C8: applying ResolveExtends twice yields the same AST as applying it
once, and on a schema whose rules already have empty extends lists and
whose patterns contain only concrete rules the transform is the
identity. -/
theorem resolve_extends_idempotent :
    (∀ fuel (s s1 : AST.Schema) m, Visitors.resolveExtends fuel s = .ok s1 →
      Visitors.resolveExtends (m + 1) s1 = .ok s1) ∧
    (∀ (s : AST.Schema) m, Visitors.goodRules s →
      Visitors.resolveExtends (m + 1) s = .ok s) := by
  refine ⟨fun fuel s s1 m h => ?_, fun s m hc => Visitors.resolveExtends_identity hc m⟩
  exact Visitors.resolveExtends_identity (Visitors.resolveExtends_goodRules h) m

/-- Schema of the C8 witness: one pattern with a concrete rule extending an
abstract rule. -/
def c8Schema : AST.Schema :=
  { patterns :=
      [.concrete (some "p")
        [.concrete "c" none [{ kind := .assert, test := "t" }] [] [.byId "a"],
         .abstractRule "a" [{ kind := .report, test := "t2" }] [] []] [] none] }

/-- Witness for C8: the second application of ResolveExtends reproduces the
result of the first. -/
theorem resolve_extends_idempotent_witness :
    ∃ s1, Visitors.resolveExtends 3 c8Schema = .ok s1 ∧
      Visitors.resolveExtends 1 s1 = .ok s1 :=
  ⟨_, rfl, resolve_extends_idempotent.1 3 c8Schema _ 0 rfl⟩

/-- Rule of the C9 counterexample, carrying the id that the instance
pattern references. -/
def c9Rule : AST.Rule := .concrete "ctx" (some "r") [] [] []

/-- Schema of the C9 counterexample: the is-a reference of the instance
pattern matches a concrete rule's id, not an abstract pattern. -/
def c9Schema : AST.Schema :=
  { patterns :=
      [.concrete none [c9Rule] [] none,
       .isA (some "inst") "r" [("x", "y")]] }

/-- Expected output of the C9 counterexample run: the instance pattern is
silently dropped. -/
def c9Reduced : AST.Schema := { patterns := [.concrete none [c9Rule] [] none] }

/-- Counterexample to C9 as stated: the schema contains an instance pattern
whose abstract_id_ref matches no abstract pattern (the schema has none),
yet the three transforms complete without raising any error; the instance
pattern is silently dropped because the id lookup found a rule node. -/
theorem unresolved_isA_without_error :
    Visitors.pipeline 3 c9Schema none = .ok c9Reduced ∧
    c9Schema.patterns.any (fun p => match p with
      | .abstractPat _ _ _ _ => true | _ => false) = false ∧
    c9Schema.patterns.any (fun p => match p with
      | .isA _ _ _ => true | _ => false) = true :=
  ⟨rfl, rfl, rfl⟩

/-- C9 amended: the transforms fail before any document is validated
whenever an id reference matches no node at all in the schema: an
ExtendsById whose id_ref matches no node raises an error, an
InstancePattern whose abstract_id_ref matches no node raises an error (but
one matching a non-pattern node is silently dropped without error), and a
selected phase id that matches no node raises an error, while one matching
a non-phase node raises an attribute error.  Stated in contrapositive form:
success of each transform implies that every reference resolved to some
node, and for the phase selection specifically to a phase node. -/
theorem unresolved_reference_errors :
    (∀ fuel (s s1 : AST.Schema), Visitors.resolveExtends fuel s = .ok s1 →
      ∀ p ∈ s.patterns, ∀ r ∈ p.rules, ∀ ref, AST.Exts.byId ref ∈ r.ext →
        Visitors.schemaFindId ref s ≠ none) ∧
    (∀ (s s2 : AST.Schema), Visitors.resolveAbstractPatterns s = .ok s2 →
      ∀ p ∈ s.patterns, ∀ i ref params, p = AST.Pattern.isA i ref params →
        Visitors.schemaFindId ref s ≠ none) ∧
    (∀ (s : AST.Schema) (phase : String) (s3 : AST.Schema),
      Visitors.phaseSelection s (some phase) = .ok s3 →
      phase ≠ "#ALL" → phase ≠ "#DEFAULT" →
      ∃ ph, Visitors.schemaFindId phase s = some (.phase ph)) := by
  refine ⟨?_, ?_, ?_⟩
  · intro fuel s s1 h p hp r hr ref href
    unfold Visitors.resolveExtends at h
    cases hm : Visitors.exceptMap (Visitors.processPatternExtends fuel s)
        s.patterns with
    | error e => rw [hm] at h; exact absurd h (by simp)
    | ok pats =>
      obtain ⟨p', hp'⟩ := Visitors.exceptMap_ok_forall hm p hp
      have hrule : ∃ r', Visitors.processRule fuel s r = .ok r' := by
        cases p with
        | concrete i rules vs t =>
          simp only [Visitors.processPatternExtends] at hp'
          cases hrs : Visitors.exceptMap (Visitors.processRule fuel s) rules with
          | error e => rw [hrs] at hp'; exact absurd hp' (by simp)
          | ok rs => exact Visitors.exceptMap_ok_forall hrs r hr
        | abstractPat i rules vs t =>
          simp only [Visitors.processPatternExtends] at hp'
          cases hrs : Visitors.exceptMap (Visitors.processRule fuel s) rules with
          | error e => rw [hrs] at hp'; exact absurd hp' (by simp)
          | ok rs => exact Visitors.exceptMap_ok_forall hrs r hr
        | isA i ref2 params =>
          simp [AST.Pattern.rules] at hr
      obtain ⟨r', hr'⟩ := hrule
      cases fuel with
      | zero => exact absurd hr' (by simp [Visitors.processRule])
      | succ n =>
        simp only [Visitors.processRule] at hr'
        cases hres : Visitors.exceptMap
            (Visitors.processOneExtWith (Visitors.processRule n s) s) r.ext with
        | error e => rw [hres] at hr'; exact absurd hr' (by simp)
        | ok resolved =>
          obtain ⟨er, her⟩ := Visitors.exceptMap_ok_forall hres _ href
          simp only [Visitors.processOneExtWith] at her
          cases hfind : Visitors.schemaFindId ref s with
          | none => rw [hfind] at her; exact absurd her (by simp)
          | some found => simp [hfind]
  · intro s s2 h p hp i ref params hisa
    unfold Visitors.resolveAbstractPatterns at h
    cases hm : Visitors.exceptFilterMap (fun p =>
        match p with
        | .isA i ref params => Visitors.processInstancePattern s i ref params
        | .concrete _ _ _ _ => .ok (some p)
        | .abstractPat _ _ _ _ => .ok (none : Option AST.Pattern))
        s.patterns with
    | error e => rw [hm] at h; exact absurd h (by simp)
    | ok pats =>
      obtain ⟨o, ho⟩ := Visitors.exceptFilterMap_ok_forall hm p hp
      subst hisa
      simp only [Visitors.processInstancePattern] at ho
      cases hfind : Visitors.schemaFindId ref s with
      | none => rw [hfind] at ho; exact absurd ho (by simp)
      | some found => simp [hfind]
  · intro s phase s3 h hall hdef
    unfold Visitors.phaseSelection at h
    cases hg : Visitors.getPhaseNode s (some phase) with
    | error e => rw [hg] at h; exact absurd h (by simp)
    | ok phNode =>
      simp only [Visitors.getPhaseNode, Option.getD_some, if_neg hall,
        if_neg hdef] at hg
      cases hfind : Visitors.schemaFindId phase s with
      | none => rw [hfind] at hg; exact absurd hg (by simp)
      | some found =>
        rw [hfind] at hg
        cases found with
        | phase ph => exact ⟨ph, rfl⟩
        | schemaNode => simp at hg
        | pat p => simp at hg
        | rul r => simp at hg
        | chk c => simp at hg

/-- Schema of the first C9 witness conjunct: an extends reference that
resolves to an abstract rule in the schema. -/
def c9wA : AST.Schema :=
  { patterns := [.concrete (some "pa")
      [.concrete "c" none [] [] [.byId "ab"], .abstractRule "ab" [] [] []] [] none] }

/-- Schema of the second C9 witness conjunct: an instance pattern whose
reference resolves to an abstract pattern. -/
def c9wB : AST.Schema :=
  { patterns :=
      [.abstractPat (some "ap") [.concrete "$x" none [] [] []] [] none,
       .isA (some "pi") "ap" [("x", "v")]] }

/-- Schema of the third C9 witness conjunct: a phase that resolves. -/
def c9wC : AST.Schema :=
  { patterns := [.concrete (some "pc") [] [] none],
    phases := [{ id := "q", active := ["pc"] }] }

/-- Witness for the amended C9 on three concrete transform runs. -/
theorem unresolved_reference_errors_witness :
    (Visitors.schemaFindId "ab" c9wA ≠ none) ∧
    (Visitors.schemaFindId "ap" c9wB ≠ none) ∧
    (∃ ph, Visitors.schemaFindId "q" c9wC = some (.phase ph)) :=
  ⟨unresolved_reference_errors.1 3 c9wA _ rfl
      (.concrete (some "pa")
        [.concrete "c" none [] [] [.byId "ab"], .abstractRule "ab" [] [] []] [] none)
      (by simp [c9wA])
      (.concrete "c" none [] [] [.byId "ab"]) (by simp [AST.Pattern.rules])
      "ab" (by simp [AST.Rule.ext]),
   unresolved_reference_errors.2.1 c9wB _ rfl
      (.isA (some "pi") "ap" [("x", "v")]) (by simp [c9wB])
      (some "pi") "ap" [("x", "v")] rfl,
   unresolved_reference_errors.2.2 c9wC "q" _ rfl
      (by decide) (by decide)⟩

/-- C6: macro expansion is a single simultaneous pass.  A key matches only
where it ends at a word boundary, so the map sending the dollar-a key to X
turns the dollar-a dollar-ab input into X followed by dollar-ab rather than
double X; the first conjunct quantifies over the replacement text, showing
that replacement text is spliced in without being rescanned; the last
conjunct shows that a replacement equal to another macro key is not
expanded again. -/
theorem macro_expand_single_pass :
    (∀ v : String, Utils.macroExpand "$a$ab" [("$a", v)] = v ++ "$ab") ∧
    Utils.macroExpand "$a$ab" [("$a", "X")] = "X$ab" ∧
    Utils.macroExpand "$x $y" [("$x", "$y"), ("$y", "Z")] = "$y Z" := by
  refine ⟨fun v => ?_, rfl, rfl⟩
  obtain ⟨l⟩ := v
  rfl

/-- Check of the C1 witness. -/
def c1Check : AST.Check := { kind := .assert, test := "t" }

/-- Pattern result of the C1 witness. -/
def c1PatternResult : Validation.PatternResult :=
  { pattern := { id := some "p" }
    ruleResults := [.fired { context := "c" }
      [{ check := c1Check, testResult := false }]] }

/-- Document result of the C1 witness: one fired rule with one failed
assert. -/
def c1Doc : Validation.DocResult :=
  { nodeResults := [{ patternResults := [c1PatternResult] }] }

/-- Witness for C1 at a concrete document result. -/
theorem document_valid_iff_no_fired_failure_witness :
    (c1Doc.isValid = true ↔
      ∀ cr ∈ Validation.allFiredChecks c1Doc, cr.checkResult = false) :=
  document_valid_iff_no_fired_failure c1Doc

/-- Rule of the C3 witness. -/
def c3wRule : Validation.VRule := { context := "cw" }

/-- Pattern result of the C3 witness. -/
def c3wPatternResult : Validation.PatternResult :=
  { pattern := { id := some "pw" }
    ruleResults := [.fired c3wRule []] }

/-- Document result of the C3 witness: one pattern with one fired rule. -/
def c3wDoc : Validation.DocResult :=
  { nodeResults := [{ patternResults := [c3wPatternResult] }] }

/-- Witness for the amended C3 at a concrete document result. -/
theorem svrl_event_stream_shape_witness :
    (SVRL.groupByPattern c3wDoc).map Prod.fst =
      SVRL.firstDedup (SVRL.encounteredPatterns c3wDoc) ∧
    (∀ p rs, (p, rs) ∈ SVRL.groupByPattern c3wDoc →
      rs = SVRL.firedContributions c3wDoc p) ∧
    SVRL.getValidationEvents c3wDoc = (SVRL.groupByPattern c3wDoc).flatMap (fun kv =>
      SVRL.Event.activePattern kv.1.id kv.1.title ::
        kv.2.flatMap SVRL.ruleEvents) ∧
    (∀ r, SVRL.ruleEvents (.skipped r) = []) ∧
    (∀ r, SVRL.ruleEvents (.suppressed r) = [.suppressedRule r.context]) ∧
    (∀ r crs, SVRL.ruleEvents (.fired r crs) =
      .firedRule r.context r.id :: SVRL.checkEvents crs) :=
  svrl_event_stream_shape c3wDoc

/-- Witness for C6: the universally quantified conjunct applied to a
concrete replacement string. -/
theorem macro_expand_single_pass_witness :
    Utils.macroExpand "$a$ab" [("$a", "QQ")] = "QQ" ++ "$ab" :=
  macro_expand_single_pass.1 "QQ"

/-- Engine of the C10 witness. -/
def c10Engine : Validation.Engine :=
  { ctxMatch := fun s => s == "m", evalTest := fun _ => false,
    renderText := fun _ => "" }

/-- Pattern of the C10 witness: both rules match, the second carries a
report that would fire, but it is suppressed. -/
def c10Pattern : Validation.VPattern :=
  { id := none, rules :=
      [{ context := "m", checks := [{ kind := .assert, test := "t" }] },
       { context := "m", checks := [{ kind := .report, test := "t" }] }] }

/-- Witness for C10 at a concrete engine and pattern. -/
theorem suppressed_checks_ignored_witness :
    (Validation.patternValidatorValidate c10Engine c10Pattern).isValid =
      ((c10Pattern.rules.find? (fun r => c10Engine.ctxMatch r.context)).elim true
        (fun r => Validation.firedIsValid
          (r.checks.map (Validation.checkValidate c10Engine)))) :=
  suppressed_checks_ignored.1 c10Engine c10Pattern

end PySchematron
